import Mathlib

/-!
Verification of the permission-aggregation core of the DenoScript repository.

The development shallowly embeds two source snapshots:

* the canonical `src/PermissionManager.ts` together with the descriptor
  factory `Permission` (class `Permission` in `src/unnamed/part_002`), and
* the earlier variant `src/unnamed/part_000`, whose registry is a
  `Map<string, Promise<boolean>>` keyed by permission *name* and whose inline
  `desc` builder contains the JavaScript `case "read" || "write" || "ffi"`
  quirk.

The host capability API (`Deno.permissions.request` / `Deno.permissions.query`)
is an external collaborator; it is modelled as an oracle assigning a
`PermissionState` to every descriptor.  A `Promise<boolean>` produced by
`requestPermission(d)` deterministically resolves to
`oracle.request d == granted`, so the registry's array of pending promises is
modelled as the list of descriptors whose requests were issued, in issue
order, and awaiting a promise is evaluating the oracle at its descriptor.
-/

/-- The closed enumeration of capability kinds,
`const permissions = ["env", "read", "write", "net", "run", "hrtime", "ffi"]`.
(`Deno.PermissionName`.) -/
inductive PName where
  | env
  | read
  | write
  | net
  | run
  | hrtime
  | ffi
deriving DecidableEq, Repr

/-- `Deno.PermissionState`: the host's answer to a request or query. -/
inductive PermissionState where
  | granted
  | denied
  | prompt
deriving DecidableEq, Repr

/-- `Deno.PermissionDescriptor`: a kind plus its optional scope value.  Each
kind carries at most one scope field in the source (`variable` for `env`,
`path` for `read`/`write`/`ffi`, `host` for `net`, `command` for `run`,
nothing for `hrtime`); `scope` models that field uniformly. -/
structure PermissionDescriptor where
  name : PName
  scope : Option String
deriving DecidableEq, Repr

/-- The constant `permissions` array, in source order. -/
def permissions : List PName :=
  [.env, .read, .write, .net, .run, .hrtime, .ffi]

/-- The host capability API (`Deno.permissions`), an external collaborator:
deterministic oracles for `request` and `query`. -/
structure Host where
  request : PermissionDescriptor → PermissionState
  query : PermissionDescriptor → PermissionState

/-- `MaybeArray<string> | undefined`: an optional single scope value or a
list of scope values. -/
inductive ScopeArg where
  | undef
  | single (s : String)
  | list (l : List String)
deriving DecidableEq, Repr

namespace Permission

/-! The descriptor factory, class `Permission` of `src/unnamed/part_002`
(imported by the canonical `PermissionManager.ts`).  Only the single-value
overloads are embedded: the array overloads map the single-value rule over
the input, and the canonical `desc` performs exactly that mapping itself
before dispatching here. -/

def env (v : Option String) : PermissionDescriptor :=
  ⟨.env, v⟩

def read (path : Option String) : PermissionDescriptor :=
  ⟨.read, path⟩

def write (path : Option String) : PermissionDescriptor :=
  ⟨.write, path⟩

def net (host : Option String) : PermissionDescriptor :=
  ⟨.net, host⟩

def run (cmd : Option String) : PermissionDescriptor :=
  ⟨.run, cmd⟩

def ffi (path : Option String) : PermissionDescriptor :=
  ⟨.ffi, path⟩

def hrtime : PermissionDescriptor :=
  ⟨.hrtime, none⟩

/-- The dynamic dispatch `Permission[name](o)` used by `desc`. -/
def index (name : PName) (o : Option String) : PermissionDescriptor :=
  match name with
  | .env => Permission.env o
  | .read => Permission.read o
  | .write => Permission.write o
  | .net => Permission.net o
  | .run => Permission.run o
  | .ffi => Permission.ffi o
  | .hrtime => Permission.hrtime

end Permission

/-- Canonical `desc` (`PermissionManager.ts`), single-value branch:
`if (name !== "hrtime") return Permission[name](o); else return Permission[name]();`. -/
def desc (name : PName) (o : Option String) : PermissionDescriptor :=
  if name ≠ .hrtime then Permission.index name o else Permission.hrtime

/-- The argument of `pushPermission`: a descriptor or the sentinel `"*"`. -/
inductive PushArg where
  | star
  | perm (p : PermissionDescriptor)
deriving DecidableEq, Repr

namespace PermissionManager

/-- The registry state: `private permissions = new Array<Promise<boolean>>()`,
modelled as the list of descriptors whose host requests were issued, in push
order.  The promise stored for a descriptor `d` resolves to
`requestPermission h d`. -/
abbrev Registry := List PermissionDescriptor

/-- `requestPermission`: awaits `Deno.permissions.request(desc)` and returns
`req.state === "granted"`. -/
def requestPermission (h : Host) (d : PermissionDescriptor) : Bool :=
  h.request d == .granted

/-- `query`: awaits `Deno.permissions.query(desc)` and returns
`req.state === "granted"`. -/
def query (h : Host) (d : PermissionDescriptor) : Bool :=
  h.query d == .granted

/-- `pushPermission`: for `"*"` it iterates `permissions.forEach`, pushing an
unscoped request `{ name }` per kind; otherwise it pushes the one request.
The canonical variant performs no membership check before pushing. -/
def pushPermission (st : Registry) : PushArg → Registry
  | .star => permissions.foldl (fun s name => s ++ [⟨name, none⟩]) st
  | .perm p => st ++ [p]

/-- `permission(name, o)`: array inputs are mapped element-wise through
`desc` and pushed left to right; a single (or absent) scope is pushed once. -/
def permission (st : Registry) (name : PName) (o : ScopeArg) : Registry :=
  match o with
  | .list l => l.foldl (fun s v => pushPermission s (.perm (desc name (some v)))) st
  | .single v => pushPermission st (.perm (desc name (some v)))
  | .undef => pushPermission st (.perm (desc name none))

/-- Shorthand `all = () => this.pushPermission("*")`. -/
def all (st : Registry) : Registry :=
  pushPermission st .star

/-- `can` on a single (or absent) scope: `this.query(desc(n, o))`. -/
def canSingle (h : Host) (n : PName) (o : Option String) : Bool :=
  query h (desc n o)

/-- `can(n, o)`: on an array it maps the single-scope query over the elements
and returns `(await Promise.all(promises)).includes(false)` — literally
whether some element's query came back `false`.  (Each recursive
`this.can(n, v)` receives a plain string and therefore takes the single-scope
branch.) -/
def can (h : Host) (n : PName) (o : ScopeArg) : Bool :=
  match o with
  | .list l => (l.map (fun v => canSingle h n (some v))).contains false
  | .single v => canSingle h n (some v)
  | .undef => canSingle h n none

/-- `can` never reads or writes `this.permissions`; its effect on the
registry state is the identity.  `canM` is `can` in state-passing form. -/
def canM (h : Host) (st : Registry) (n : PName) (o : ScopeArg) : Bool × Registry :=
  (can h n o, st)

/-- `settle`: awaits every stored promise and returns
`!promises.includes(false)`. -/
def settle (h : Host) (st : Registry) : Bool :=
  !((st.map (requestPermission h)).contains false)

/-- `ensure`: `if (!(await this.settle())) throw new Error("Permission denied")`. -/
def ensure (h : Host) (st : Registry) : Except String Unit :=
  if !(settle h st) then .error "Permission denied" else .ok ()

/-- The public operations of the manager, for stating frame and
monotonicity properties over arbitrary call sequences.  The per-kind
shorthands (`env`, `read`, …, `hrtime`) are `permission` with the kind
fixed, so `opPermission` covers them. -/
inductive Op where
  | opPermission (name : PName) (o : ScopeArg)
  | opAll
  | opCan (n : PName) (o : ScopeArg)
  | opSettle
  | opEnsure
deriving Repr

/-- The registry state after one public operation.  `can`, `settle` and
`ensure` only read `this.permissions` (via `canM`, `settle`, `ensure`); the
mutators are `permission` and `all`. -/
def applyOp (h : Host) (st : Registry) : Op → Registry
  | .opPermission name o => permission st name o
  | .opAll => all st
  | .opCan n o => (canM h st n o).2
  | .opSettle => st
  | .opEnsure => st

end PermissionManager

namespace Variant

/-! The earlier source snapshot `src/unnamed/part_000`. -/

/-- The inline `desc` builder of `part_000`.  Its `switch` reads

```
case "read" || "write" || "ffi": return { name, path: optional };
```

In JavaScript the case label is the *expression* `"read" || "write" || "ffi"`,
which evaluates to `"read"`, so only `name === "read"` takes that branch;
`write` and `ffi` fall through to `default: return { name }`, dropping any
provided scope.  The match below encodes that evaluated behaviour. -/
def desc (name : PName) (optional : Option String) : PermissionDescriptor :=
  match name with
  | .net => ⟨.net, optional⟩
  | .run => ⟨.run, optional⟩
  | .env => ⟨.env, optional⟩
  | .read => ⟨.read, optional⟩
  | .write => ⟨.write, none⟩
  | .ffi => ⟨.ffi, none⟩
  | .hrtime => ⟨.hrtime, none⟩

/-- The variant registry:
`private permissions = new Map<string, Promise<boolean>>()`, keyed by the
descriptor's `name`, in insertion order (a JavaScript `Map` preserves it). -/
abbrev RegistryV := List (PName × PermissionDescriptor)

/-- `this.permissions.has(name)`. -/
def hasName (st : RegistryV) (n : PName) : Bool :=
  st.any (fun e => e.1 == n)

/-- The variant `pushPermission`: for `"*"` it inserts `{ name }` per kind
unless the key is already present; for a descriptor it inserts under
`perm.name` unless that key is already present. -/
def pushPermission (st : RegistryV) : PushArg → RegistryV
  | .star =>
      permissions.foldl
        (fun s name => if hasName s name then s else s ++ [(name, ⟨name, none⟩)]) st
  | .perm p => if hasName st p.name then st else st ++ [(p.name, p)]

/-- The variant `wait`: awaits every stored promise and returns
`!promises.includes(false)`. -/
def wait (h : Host) (st : RegistryV) : Bool :=
  !((st.map (fun e => PermissionManager.requestPermission h e.2)).contains false)

/-- The variant `can(n, o)`: `this.query(desc(n, o))` through the inline
builder above.  There is no batch form in this snapshot. -/
def can (h : Host) (n : PName) (o : Option String) : Bool :=
  PermissionManager.query h (desc n o)

end Variant

/-- Accumulating one descriptor `n` times in a row through the canonical
`pushPermission`. -/
def accumulateN : Nat → PermissionManager.Registry → PermissionDescriptor →
    PermissionManager.Registry
  | 0, st, _ => st
  | n + 1, st, d => accumulateN n (PermissionManager.pushPermission st (.perm d)) d

/-- A host that grants every request and query. -/
def hostGrantAll : Host :=
  ⟨fun _ => .granted, fun _ => .granted⟩

/-- A host that denies every request and query. -/
def hostDenyAll : Host :=
  ⟨fun _ => .denied, fun _ => .denied⟩

/-- A host that answers `prompt` to every request and query. -/
def hostPrompt : Host :=
  ⟨fun _ => .prompt, fun _ => .prompt⟩

/-- A host that grants exactly the descriptor `read` scoped to `"a"`. -/
def hostGrantReadA : Host :=
  ⟨fun d => if d = ⟨.read, some "a"⟩ then .granted else .denied,
   fun d => if d = ⟨.read, some "a"⟩ then .granted else .denied⟩

section Helpers

/-- Folding "append one mapped element" over a list appends the mapped list. -/
theorem foldl_push_eq_append {α β : Type} (f : α → β) (l : List α) :
    ∀ st : List β, l.foldl (fun s v => s ++ [f v]) st = st ++ l.map f := by
  induction l with
  | nil => intro st; simp
  | cons a l ih => intro st; simp [List.foldl_cons, ih, List.append_assoc]

/-- `!includes(false)` over a list of booleans is the conjunction of the list. -/
theorem not_contains_false_eq_all (l : List Bool) :
    (!(l.contains false)) = l.all (fun b => b) := by
  induction l with
  | nil => rfl
  | cons b l ih => cases b <;> simp_all

/-- Conjunction of a mapped list is the conjunction of the map's composite. -/
theorem all_map_id {α : Type} (f : α → Bool) (l : List α) :
    (l.map f).all (fun b => b) = l.all f := by
  induction l with
  | nil => rfl
  | cons a l ih => rw [List.map_cons, List.all_cons, List.all_cons, ih]

/-- `settle` is the conjunction of the individual request outcomes. -/
theorem settle_eq_all (h : Host) (st : PermissionManager.Registry) :
    PermissionManager.settle h st
      = st.all (fun d => PermissionManager.requestPermission h d) := by
  rw [PermissionManager.settle, not_contains_false_eq_all, all_map_id]

/-- The conjunction over a nonempty constant list is its repeated element. -/
theorem all_replicate_pos {α : Type} (p : α → Bool) (a : α) :
    ∀ n : Nat, 0 < n → (List.replicate n a).all p = p a := by
  intro n
  induction n with
  | zero => intro hn; exact absurd hn (by simp)
  | succ m ih =>
      intro _
      cases m with
      | zero => simp
      | succ k =>
          rw [List.replicate_succ, List.all_cons, ih (Nat.succ_pos k), Bool.and_self]

/-- `accumulateN` appends `n` copies of the descriptor. -/
theorem accumulateN_eq_append (d : PermissionDescriptor) :
    ∀ (n : Nat) (st : PermissionManager.Registry),
      accumulateN n st d = st ++ List.replicate n d := by
  intro n
  induction n with
  | zero => intro st; simp [accumulateN]
  | succ m ih =>
      intro st
      rw [accumulateN, ih]
      simp [PermissionManager.pushPermission, List.replicate_succ, List.append_assoc]

end Helpers

/-- C1, counterexample: accumulating the descriptor `read:"a"` twice through
the canonical `pushPermission` tracks two `PendingRequest`s for the same
descriptor (each tracked entry is one issued host request), refuting "at most
one `PendingRequest` per distinct descriptor" and "exactly one host
`requestCapability` call". -/
theorem C1_cex :
    PermissionManager.pushPermission
        (PermissionManager.pushPermission [] (.perm ⟨.read, some "a"⟩))
        (.perm ⟨.read, some "a"⟩)
      = [⟨.read, some "a"⟩, ⟨.read, some "a"⟩] := by
  decide

/-- C1, amended: the canonical `pushPermission` performs no deduplication —
accumulating a descriptor `d` a total of `n` times tracks `n` copies of `d`
(one host request each); for `n ≥ 1`, `settle()` afterward still equals the
outcome of `d`'s request, since the host resolves every request for `d` the
same way.  Only the earlier Map-based variant deduplicates: there,
re-accumulating a descriptor whose capability kind is already tracked is a
no-op issuing no second host request. -/
theorem C1_amended (h : Host) (d : PermissionDescriptor) (n : Nat) :
    accumulateN n [] d = List.replicate n d
    ∧ (0 < n →
        PermissionManager.settle h (accumulateN n [] d)
          = PermissionManager.requestPermission h d)
    ∧ (∀ st : Variant.RegistryV, Variant.hasName st d.name = true →
        Variant.pushPermission st (.perm d) = st) := by
  refine ⟨?_, ?_, ?_⟩
  · rw [accumulateN_eq_append]; rfl
  · intro hn
    rw [accumulateN_eq_append, List.nil_append, settle_eq_all,
      all_replicate_pos _ _ n hn]
  · intro st hst
    rw [Variant.pushPermission, hst]
    rfl

/-- C1, witness for the amended statement's hypotheses, at `n = 3` and a
registry already tracking the `read` kind. -/
theorem C1_amended_witness :
    PermissionManager.settle hostGrantAll (accumulateN 3 [] ⟨.read, some "a"⟩)
      = PermissionManager.requestPermission hostGrantAll ⟨.read, some "a"⟩
    ∧ Variant.pushPermission [(.read, ⟨.read, some "a"⟩)] (.perm ⟨.read, some "b"⟩)
      = [(.read, ⟨.read, some "a"⟩)] :=
  ⟨(C1_amended hostGrantAll ⟨.read, some "a"⟩ 3).2.1 (by decide),
   (C1_amended hostGrantAll ⟨.read, some "b"⟩ 3).2.2
     [(.read, ⟨.read, some "a"⟩)] (by decide)⟩

/-- C2: `settle()` returns `true` iff every tracked request resolved to
`granted`; in particular it is vacuously `true` on an empty registry, `true`
when all tracked outcomes are granted, and `false` as soon as one is not. -/
theorem C2_settle_iff (h : Host) (st : PermissionManager.Registry) :
    PermissionManager.settle h st = true ↔ ∀ d ∈ st, h.request d = .granted := by
  rw [settle_eq_all, List.all_eq_true]
  constructor
  · intro hall d hd
    have := hall d hd
    rwa [PermissionManager.requestPermission, beq_iff_eq] at this
  · intro hall d hd
    rw [PermissionManager.requestPermission, beq_iff_eq]
    exact hall d hd

/-- C2, witness: the equivalence applied to a concrete two-element registry
under an all-granting host. -/
theorem C2_settle_iff_witness :
    PermissionManager.settle hostGrantAll [⟨.read, some "a"⟩, ⟨.write, some "b"⟩]
      = true :=
  (C2_settle_iff hostGrantAll [⟨.read, some "a"⟩, ⟨.write, some "b"⟩]).mpr
    (by intro d _; rfl)

/-- C3: the batch query is inverted in the code.  With a host granting both
`read:"a"` and `read:"b"`, `can("read", ["a","b"])` returns `false` (the
claim requires `true`); with a host granting only `read:"a"`,
it returns `true` (the claim requires `false`).  The code computes
`promises.includes(false)` — "some scope not granted" — instead of the
conjunction that the spec and the adjacent `settle` use. -/
theorem C3_can_batch_inverted :
    PermissionManager.can hostGrantAll .read (.list ["a", "b"]) = false
    ∧ PermissionManager.can hostGrantReadA .read (.list ["a", "b"]) = true := by
  decide

/-- C4: `ensure()` fails with the `PermissionDenied` error
(`Error("Permission denied")`) iff `settle()` is `false`, resolves cleanly
iff `settle()` is `true`, and `PermissionDenied` is its only failure value. -/
theorem C4_ensure_iff (h : Host) (st : PermissionManager.Registry) :
    (PermissionManager.ensure h st = .error "Permission denied"
      ↔ PermissionManager.settle h st = false)
    ∧ (PermissionManager.ensure h st = .ok ()
      ↔ PermissionManager.settle h st = true)
    ∧ (∀ e, PermissionManager.ensure h st = .error e → e = "Permission denied") := by
  rw [PermissionManager.ensure]
  cases hb : PermissionManager.settle h st <;> simp

/-- C4, witness: a denying host makes `ensure` fail with exactly
`Permission denied`; an all-granting host makes it resolve cleanly. -/
theorem C4_ensure_iff_witness :
    PermissionManager.ensure hostDenyAll [⟨.net, none⟩] = .error "Permission denied"
    ∧ PermissionManager.ensure hostGrantAll [⟨.net, none⟩] = .ok () :=
  ⟨(C4_ensure_iff hostDenyAll [⟨.net, none⟩]).1.mpr (by decide),
   (C4_ensure_iff hostGrantAll [⟨.net, none⟩]).2.1.mpr (by decide)⟩

/-- C5, counterexample: after `read(["a","b","c"])`, a later `read("a")` is
*not* deduplicated against the tracked `read:"a"` — the canonical registry
ends up tracking the descriptor `read:"a"` twice. -/
theorem C5_cex :
    (PermissionManager.permission
        (PermissionManager.permission [] .read (.list ["a", "b", "c"]))
        .read (.single "a")).count ⟨.read, some "a"⟩ = 2 := by
  decide

/-- C5, amended: `permission(kind, list)` tracks one descriptor per list
element, in input order, applying the single-value `desc` rule to each; but
no deduplication occurs at any layer of the canonical variant, so a later
`read("a")` appends a second `read:"a"` request instead of being
deduplicated. -/
theorem C5_amended (st : PermissionManager.Registry) (name : PName)
    (l : List String) :
    PermissionManager.permission st name (.list l)
      = st ++ l.map (fun v => desc name (some v))
    ∧ PermissionManager.permission
        (PermissionManager.permission [] .read (.list ["a", "b", "c"]))
        .read (.single "a")
      = [⟨.read, some "a"⟩, ⟨.read, some "b"⟩, ⟨.read, some "c"⟩,
         ⟨.read, some "a"⟩] := by
  constructor
  · rw [PermissionManager.permission]
    exact foldl_push_eq_append (fun v => desc name (some v)) l st
  · decide

/-- C6: `can` never consults or mutates the registry's tracked set — its
state effect is the identity — and after any sequence of `can` queries on a
fresh registry with zero accumulations, `settle` still resolves vacuously
`true`. -/
theorem C6_query_independence (h : Host) (st : PermissionManager.Registry)
    (n : PName) (o : ScopeArg) :
    (PermissionManager.canM h st n o).2 = st
    ∧ ∀ qs : List (PName × ScopeArg),
        PermissionManager.settle h
          (qs.foldl (fun s q => (PermissionManager.canM h s q.1 q.2).2) []) = true := by
  constructor
  · rfl
  · intro qs
    have hfix : ∀ (l : List (PName × ScopeArg)) (s : PermissionManager.Registry),
        l.foldl (fun s q => (PermissionManager.canM h s q.1 q.2).2) s = s := by
      intro l
      induction l with
      | nil => intro s; rfl
      | cons q l ih => intro s; rw [List.foldl_cons]; exact ih s
    rw [hfix qs []]
    rfl

/-- C7: the tracked set only grows — every public operation maps the
registry state `st` to `st ++ t` for some (possibly empty) suffix `t`; no
operation removes a previously tracked request. -/
theorem C7_monotonic (h : Host) (st : PermissionManager.Registry)
    (op : PermissionManager.Op) :
    ∃ t, PermissionManager.applyOp h st op = st ++ t := by
  cases op with
  | opPermission name o =>
      cases o with
      | list l =>
          exact ⟨l.map (fun v => desc name (some v)),
            foldl_push_eq_append (fun v => desc name (some v)) l st⟩
      | single v => exact ⟨[desc name (some v)], rfl⟩
      | undef => exact ⟨[desc name none], rfl⟩
  | opAll =>
      exact ⟨permissions.map (fun n => (⟨n, none⟩ : PermissionDescriptor)),
        foldl_push_eq_append (fun n => (⟨n, none⟩ : PermissionDescriptor))
          permissions st⟩
  | opCan n o => exact ⟨[], (List.append_nil st).symm⟩
  | opSettle => exact ⟨[], (List.append_nil st).symm⟩
  | opEnsure => exact ⟨[], (List.append_nil st).symm⟩

/-- C8: both internal host calls map the host's `GrantState` to a boolean by
treating exactly `granted` as `true`: `denied` and `prompt` both yield
`false`, for `requestPermission` and for `query` alike. -/
theorem C8_grant_mapping (h : Host) (d : PermissionDescriptor) :
    (PermissionManager.requestPermission h d = true ↔ h.request d = .granted)
    ∧ (h.request d = .denied → PermissionManager.requestPermission h d = false)
    ∧ (h.request d = .prompt → PermissionManager.requestPermission h d = false)
    ∧ (PermissionManager.query h d = true ↔ h.query d = .granted)
    ∧ (h.query d = .denied → PermissionManager.query h d = false)
    ∧ (h.query d = .prompt → PermissionManager.query h d = false) := by
  rw [PermissionManager.requestPermission, PermissionManager.query]
  cases h.request d <;> cases h.query d <;> simp

/-- C8, witness: a prompting host yields `false` from `requestPermission`,
and a denying host yields `false` from `query`, at a concrete descriptor. -/
theorem C8_grant_mapping_witness :
    PermissionManager.requestPermission hostPrompt ⟨.env, none⟩ = false
    ∧ PermissionManager.query hostDenyAll ⟨.env, none⟩ = false :=
  ⟨(C8_grant_mapping hostPrompt ⟨.env, none⟩).2.2.1 (by decide),
   (C8_grant_mapping hostDenyAll ⟨.env, none⟩).2.2.2.2.1 (by decide)⟩

/-- C9, counterexample: accumulating `"*"` on a canonical registry that
already tracks the unscoped `env` descriptor tracks `env` a second time —
the expansion is *not* deduplicated against existing entries. -/
theorem C9_cex :
    (PermissionManager.pushPermission [⟨.env, none⟩] .star).count ⟨.env, none⟩
      = 2 := by
  decide

/-- C9, amended: `pushPermission("*")` appends exactly one unscoped
descriptor per kind of the closed enumeration, in the order
`env, read, write, net, run, hrtime, ffi`, with no deduplication against
existing tracked entries in the canonical variant; only the earlier
Map-based variant skips kinds already tracked (here: a registry already
holding `env` gains only the remaining six kinds). -/
theorem C9_amended (st : PermissionManager.Registry) :
    PermissionManager.pushPermission st .star
      = st ++ [⟨.env, none⟩, ⟨.read, none⟩, ⟨.write, none⟩, ⟨.net, none⟩,
               ⟨.run, none⟩, ⟨.hrtime, none⟩, ⟨.ffi, none⟩]
    ∧ Variant.pushPermission [(.env, ⟨.env, none⟩)] .star
      = [(.env, ⟨.env, none⟩), (.read, ⟨.read, none⟩), (.write, ⟨.write, none⟩),
         (.net, ⟨.net, none⟩), (.run, ⟨.run, none⟩), (.hrtime, ⟨.hrtime, none⟩),
         (.ffi, ⟨.ffi, none⟩)] := by
  constructor
  · exact foldl_push_eq_append (fun n => (⟨n, none⟩ : PermissionDescriptor))
      permissions st
  · decide

/-- C10: in the earlier variant's inline `desc` builder, the case label
`"read" || "write" || "ffi"` evaluates to `"read"`, so a provided scope is
kept only for `read` and silently dropped for `write` and `ffi`; hence the
variant `can("write", p)` and `can("ffi", p)` query the unscoped descriptor. -/
theorem C10_scope_dropped (h : Host) (p : String) :
    Variant.desc .write (some p) = ⟨.write, none⟩
    ∧ Variant.desc .ffi (some p) = ⟨.ffi, none⟩
    ∧ Variant.desc .read (some p) = ⟨.read, some p⟩
    ∧ Variant.can h .write (some p) = PermissionManager.query h ⟨.write, none⟩
    ∧ Variant.can h .ffi (some p) = PermissionManager.query h ⟨.ffi, none⟩ :=
  ⟨rfl, rfl, rfl, rfl, rfl⟩
